import Mathlib

/-!
# Verification of the NimbusTodo task persistence and derived-view core

Shallow embedding of the task-tracking core (`src/types/task.ts`,
`src/utils/task.ts`, `src/hooks/useTaskList.ts`, `src/hooks/useLocalStorage.ts`).

Modelling conventions:
* A JavaScript `Date` is its epoch instant in milliseconds, modelled as `Int`.
  `setHours(0,0,0,0)` (truncation to the start of the calendar day) is modelled
  as flooring to a multiple of `msPerDay`.
* Optional / nullable fields (`?:` and `| null`) are `Option`; both `undefined`
  and `null` map to `none`, matching how the code treats them (truthiness
  tests and JSON round-trips conflate the two for these fields).
* `Date.now()` is threaded explicitly: every operation that reads the clock
  takes a `now : Int` parameter.  `addTask` calls `new Date()` twice for
  `createdAt` and `updatedAt`; both calls happen at the instant the operation
  runs, so both receive the same `now`.
* React `setTasks` state updates become pure functions `List Task → List Task`.
-/

namespace Nimbus

/-- Priority levels for tasks (`src/types/task.ts`). -/
inductive TaskPriority where
  | low
  | medium
  | high
  | urgent
deriving DecidableEq, Repr

/-- Task status enum (`src/types/task.ts`). -/
inductive TaskStatus where
  | pending
  | completed
  | archived
deriving DecidableEq, Repr

/-- Core `Task` interface (`src/types/task.ts`).  Date-valued fields are epoch
milliseconds (`Int`). -/
structure Task where
  id : String
  title : String
  description : Option String := none
  dueDate : Option Int := none
  priority : TaskPriority
  status : TaskStatus
  createdAt : Int
  updatedAt : Int
  completedAt : Option Int := none
  tags : Option (List String) := none
  listId : Option String := none
deriving DecidableEq, Repr

/-- Interface `TaskInput`: task creation payload without auto-generated fields
(`src/types/task.ts`). -/
structure TaskInput where
  title : String
  description : Option String := none
  dueDate : Option Int := none
  priority : TaskPriority
  status : Option TaskStatus := none
  tags : Option (List String) := none
  listId : Option String := none
deriving DecidableEq, Repr

/-- Shape `Partial<Task>`: the update payload of `updateTask`.  Each field of `Task`
may be present (`some`) or absent (`none`); a present field carries a value of
the field's own type (which may itself be nullable, hence the nested
`Option`s). -/
structure TaskUpdate where
  id : Option String := none
  title : Option String := none
  description : Option (Option String) := none
  dueDate : Option (Option Int) := none
  priority : Option TaskPriority := none
  status : Option TaskStatus := none
  createdAt : Option Int := none
  updatedAt : Option Int := none
  completedAt : Option (Option Int) := none
  tags : Option (Option (List String)) := none
  listId : Option (Option String) := none
deriving DecidableEq, Repr

/-- Milliseconds per calendar day. -/
def msPerDay : Int := 86400000

/-- Models `date.setHours(0, 0, 0, 0)`: truncate an instant to the start of its
calendar day (day granularity). -/
def startOfDay (t : Int) : Int := (Int.fdiv t msPerDay) * msPerDay

/-! ## Task Collection Manager (`src/hooks/useTaskList.ts`) -/

/-- Function `addTask` (`useTaskList.ts` lines 14–29): builds the new task from the
input — `status: input.status || 'pending'` (every status string is truthy, so
`||` is exactly option-defaulting), `createdAt`/`updatedAt` set to the current
instant, `completedAt` left unset — and prepends it to the collection.
The generated unique id is threaded as the `freshId` argument.  Returns the
created task together with the new collection. -/
def addTask (now : Int) (freshId : String) (input : TaskInput)
    (tasks : List Task) : Task × List Task :=
  let newTask : Task :=
    { id := freshId
      title := input.title
      description := input.description
      dueDate := input.dueDate
      priority := input.priority
      status := input.status.getD .pending
      tags := input.tags
      listId := input.listId
      createdAt := now
      updatedAt := now
      completedAt := none }
  (newTask, newTask :: tasks)

/-- The spread `{ ...task, ...updates, updatedAt: new Date() }` of
`updateTask`: every field present in `updates` overrides the task's field;
`updatedAt` is written last, so it is always the current instant. -/
def applyUpdate (now : Int) (t : Task) (u : TaskUpdate) : Task :=
  { id := u.id.getD t.id
    title := u.title.getD t.title
    description := u.description.getD t.description
    dueDate := u.dueDate.getD t.dueDate
    priority := u.priority.getD t.priority
    status := u.status.getD t.status
    createdAt := u.createdAt.getD t.createdAt
    updatedAt := now
    completedAt := u.completedAt.getD t.completedAt
    tags := u.tags.getD t.tags
    listId := u.listId.getD t.listId }

/-- Function `updateTask` (`useTaskList.ts` lines 34–46): maps over the collection,
merging the payload into the task whose id matches and leaving every other
task alone. -/
def updateTask (now : Int) (id : String) (updates : TaskUpdate)
    (tasks : List Task) : List Task :=
  tasks.map (fun t => if t.id = id then applyUpdate now t updates else t)

/-- Function `deleteTask` (`useTaskList.ts` lines 51–53): removes the task with the
matching id. -/
def deleteTask (id : String) (tasks : List Task) : List Task :=
  tasks.filter (fun t => ¬ (t.id = id))

/-- Function `updateTaskStatus` (`useTaskList.ts` lines 58–71): on the matching task,
sets the new status, sets `completedAt` to the current instant when the new
status is `completed` and to `null` otherwise, and refreshes `updatedAt`. -/
def updateTaskStatus (now : Int) (id : String) (status : TaskStatus)
    (tasks : List Task) : List Task :=
  tasks.map (fun t =>
    if t.id = id then
      { t with
        status := status
        completedAt := if status = .completed then some now else none
        updatedAt := now }
    else t)

/-- The argument of `getTasksByStatus`: either a concrete `TaskStatus` or the
special string `'all'`. -/
inductive StatusFilter where
  | all
  | status (s : TaskStatus)
deriving DecidableEq, Repr

/-- Function `getTasksByStatus` (`useTaskList.ts` lines 76–84): for `'all'`, filters out
archived tasks; for a concrete status, keeps exactly the tasks with that
status. -/
def getTasksByStatus (tasks : List Task) (f : StatusFilter) : List Task :=
  match f with
  | .all => tasks.filter (fun t => ¬ (t.status = .archived))
  | .status s => tasks.filter (fun t => t.status = s)

/-- Function `getTasksByPriority` (`useTaskList.ts` lines 89–94). -/
def getTasksByPriority (tasks : List Task) (priority : TaskPriority) :
    List Task :=
  tasks.filter (fun t => t.priority = priority)

/-- Function `getOverdueTasks` (`useTaskList.ts` lines 99–108): `now` is the full
current instant (`new Date()`, not truncated to midnight); a task is kept when
its due date is present and strictly before `now` and its status is neither
`completed` nor `archived`. -/
def getOverdueTasks (now : Int) (tasks : List Task) : List Task :=
  tasks.filter (fun t =>
    match t.dueDate with
    | some d => d < now ∧ ¬ (t.status = .completed) ∧ ¬ (t.status = .archived)
    | none => False)

/-- Function `clearCompleted` (`useTaskList.ts` lines 130–134): archives every
currently-completed task; no other field of any task is written. -/
def clearCompleted (tasks : List Task) : List Task :=
  tasks.map (fun t =>
    if t.status = .completed then { t with status := .archived } else t)

/-! ## Derived-View Utilities (`src/utils/task.ts`) -/

/-- Function `getPriorityValue` (`utils/task.ts` lines 6–14): fixed numeric rank,
higher = more urgent. -/
def getPriorityValue : TaskPriority → Nat
  | .low => 1
  | .medium => 2
  | .high => 3
  | .urgent => 4

/-- The order induced by the comparator
`(a, b) => getPriorityValue(b.priority) - getPriorityValue(a.priority)`:
`a` may precede `b` exactly when the comparator is `≤ 0`, i.e. when
`getPriorityValue b.priority ≤ getPriorityValue a.priority`. -/
def prioLe (a b : Task) : Bool :=
  getPriorityValue b.priority ≤ getPriorityValue a.priority

/-- Function `sortByPriority` (`utils/task.ts` lines 19–21): `[...tasks].sort(cmp)`
with the descending priority comparator.  `Array.prototype.sort` is a stable
sort, and a stable sort with respect to a total preorder has a unique result,
so the copy-then-stable-sort is modelled by `List.mergeSort` on `prioLe`. -/
def sortByPriority (tasks : List Task) : List Task :=
  tasks.mergeSort prioLe

/-- Function `isTaskOverdue` (`utils/task.ts` lines 37–46): false when the due date is
absent or the status is `completed`/`archived`; otherwise both the current
instant and the due date are truncated to the start of their calendar day
(`setHours(0,0,0,0)`) and compared strictly. -/
def isTaskOverdue (t : Task) (now : Int) : Bool :=
  if t.dueDate = none ∨ t.status = .completed ∨ t.status = .archived then
    false
  else
    startOfDay (t.dueDate.getD 0) < startOfDay now

/-- One step of `groupTasks`: `grouped[key]` is created as `[]` when absent,
then the task is pushed onto the end of the group.  A JavaScript object with
string keys enumerates keys in insertion order, so the mapping is modelled as
an association list in key-insertion order. -/
def addToGroups (groups : List (String × List Task)) (k : String) (t : Task) :
    List (String × List Task) :=
  if groups.any (fun p => p.1 = k) then
    groups.map (fun p => if p.1 = k then (p.1, p.2 ++ [t]) else p)
  else
    groups ++ [(k, [t])]

/-- Function `groupTasks` (`utils/task.ts` lines 154–169): one forward pass over the
tasks, appending each task to the group of its key.  `key` models
`task => String(task[groupBy])` for the chosen field. -/
def groupTasks (tasks : List Task) (key : Task → String) :
    List (String × List Task) :=
  tasks.foldl (fun acc t => addToGroups acc (key t) t) []

/-- Lookup of a group by key (JavaScript `grouped[k]`, `undefined` when the
key is absent). -/
def findGroup (groups : List (String × List Task)) (k : String) :
    Option (List Task) :=
  (groups.find? (fun p => p.1 = k)).map Prod.snd

/-! ## Persisted Store (`src/hooks/useLocalStorage.ts`)

`JSON.stringify` serializes each `Date` as a round-trippable decimal-digit
text (the engine emits ISO-8601 with millisecond precision; the model emits
the decimal epoch milliseconds — both are injective textual renderings of the
instant with an exact parse), serializes `null`/absent optional fields as
absent, and keeps strings and string arrays as they are.  The stored value is
modelled as the parsed JSON document: a list of task records whose date
fields are strings. -/

/-- Digit `d` (`d < 10`) as its decimal character. -/
def digitChar (d : Nat) : Char := Char.ofNat (48 + d)

/-- Inverse of `digitChar` on decimal digit characters. -/
def charDigit (c : Char) : Nat := c.toNat - 48

/-- Big-endian decimal digits of a natural number (`[0]` for zero). -/
def digitsBE (n : Nat) : List Nat :=
  if n = 0 then [0] else (Nat.digits 10 n).reverse

/-- Decimal text of a natural number. -/
def natChars (n : Nat) : List Char := (digitsBE n).map digitChar

/-- Parse decimal text back to a natural number. -/
def parseNatChars (cs : List Char) : Nat :=
  Nat.ofDigits 10 ((cs.map charDigit).reverse)

/-- Serialize an instant to text (decimal milliseconds, `-`-signed). -/
def encDate (t : Int) : String :=
  if t < 0 then String.mk ('-' :: natChars t.natAbs)
  else String.mk (natChars t.natAbs)

/-- Parse serialized date text back to an instant (`new Date(string)`). -/
def decDateChars : List Char → Int
  | [] => 0
  | c :: cs => if c = '-' then -(parseNatChars cs : Int)
               else (parseNatChars (c :: cs) : Int)

/-- Parse a serialized date string back to an instant. -/
def decDate (s : String) : Int := decDateChars s.data

/-- A task record as it sits in durable storage: the shape of `Task` with
every date-typed field in serialized (string) form. -/
structure StoredTask where
  id : String
  title : String
  description : Option String := none
  dueDate : Option String := none
  priority : TaskPriority
  status : TaskStatus
  createdAt : String
  updatedAt : String
  completedAt : Option String := none
  tags : Option (List String) := none
  listId : Option String := none
deriving DecidableEq, Repr

/-- Serialization of one task (`JSON.stringify` on a task record): date
fields rendered as text, everything else kept structurally. -/
def serializeTask (t : Task) : StoredTask :=
  { id := t.id
    title := t.title
    description := t.description
    dueDate := t.dueDate.map encDate
    priority := t.priority
    status := t.status
    createdAt := encDate t.createdAt
    updatedAt := encDate t.updatedAt
    completedAt := t.completedAt.map encDate
    tags := t.tags
    listId := t.listId }

/-- Date reconstruction for the nullable date fields
(`task.dueDate ? new Date(task.dueDate) : null`): a truthiness test, so an
absent field and an empty string both yield `null`. -/
def reviveOptDate (s : Option String) : Option Int :=
  match s with
  | none => none
  | some str => if str.data = [] then none else some (decDate str)

/-- Deserialization of one task (`useLocalStorage.ts` lines 18–25): spread the
parsed record and reconstruct the four date-typed fields from their string
form back into instants. -/
def deserializeTask (s : StoredTask) : Task :=
  { id := s.id
    title := s.title
    description := s.description
    dueDate := reviveOptDate s.dueDate
    priority := s.priority
    status := s.status
    createdAt := decDate s.createdAt
    updatedAt := decDate s.updatedAt
    completedAt := reviveOptDate s.completedAt
    tags := s.tags
    listId := s.listId }

/-- Function `save`: serialize the whole collection (`JSON.stringify(valueToStore)`). -/
def saveTasks (tasks : List Task) : List StoredTask :=
  tasks.map serializeTask

/-- Function `load`: parse the stored value and reconstruct every task's date fields
(`useLocalStorage.ts` lines 18–25). -/
def loadTasks (stored : List StoredTask) : List Task :=
  stored.map deserializeTask

/-- State of the persisted store: the in-memory collection (React state) and
the durable storage slot for the hook's key (`none` = no value stored). -/
structure StoreState where
  memory : List Task
  storage : Option (List StoredTask)
deriving Repr

/-- The argument of `setValue`: a plain new value, or an updater function
applied to the current state (`value instanceof Function`). -/
inductive SetValueArg where
  | val (v : List Task)
  | fn (f : List Task → List Task)

/-- Models `value instanceof Function ? value(storedValue) : value`. -/
def resolveArg (st : StoreState) (arg : SetValueArg) : List Task :=
  match arg with
  | .val v => v
  | .fn f => f st.memory

/-- Models `window.localStorage.setItem`: succeeds and replaces the stored value, or
throws (quota exceeded, storage disabled).  `writeOk` selects the behaviour
of the environment. -/
def setItemOp (writeOk : Bool) (v : List StoredTask) :
    Except String (Option (List StoredTask)) :=
  if writeOk then .ok (some v) else .error "QuotaExceededError"

/-- The body of the `try` block of `setValue` (`useLocalStorage.ts` lines
37–53): resolve the value, update the in-memory state, then write through to
durable storage.  Returns the state after the body together with the
exception it threw, if any; the in-memory update precedes the write, so it
survives a throwing write. -/
def setValueTry (writeOk : Bool) (st : StoreState) (arg : SetValueArg) :
    StoreState × Option String :=
  let valueToStore := resolveArg st arg
  let st1 : StoreState := { st with memory := valueToStore }
  match setItemOp writeOk (saveTasks valueToStore) with
  | .ok storage2 => ({ st1 with storage := storage2 }, none)
  | .error e => (st1, some e)

/-- Function `setValue`: the `try` body wrapped in the `catch` handler, which logs the
error as a warning (`console.warn`) and rethrows nothing, so no exception
reaches the caller. -/
def setValue (writeOk : Bool) (st : StoreState) (arg : SetValueArg) :
    StoreState × Option String :=
  ((setValueTry writeOk st arg).1, none)

/-! ## Helper lemmas -/

lemma charDigit_digitChar {d : Nat} (h : d < 10) : charDigit (digitChar d) = d := by
  interval_cases d <;> decide

lemma digitChar_ne_dash {d : Nat} (h : d < 10) : digitChar d ≠ '-' := by
  interval_cases d <;> decide

lemma digitsBE_lt (n : Nat) : ∀ d ∈ digitsBE n, d < 10 := by
  intro d hd
  unfold digitsBE at hd
  split at hd
  · simp at hd; omega
  · exact Nat.digits_lt_base (by norm_num) (List.mem_reverse.mp hd)

lemma digitsBE_ne_nil (n : Nat) : digitsBE n ≠ [] := by
  unfold digitsBE
  split
  · simp
  · simpa using Nat.digits_ne_nil_iff_ne_zero.mpr (by assumption)

lemma natChars_ne_nil (n : Nat) : natChars n ≠ [] := by
  unfold natChars
  simpa using digitsBE_ne_nil n

lemma parseNatChars_natChars (n : Nat) : parseNatChars (natChars n) = n := by
  unfold parseNatChars natChars
  rw [List.map_map]
  have hmap : (digitsBE n).map (charDigit ∘ digitChar) = digitsBE n := by
    conv_rhs => rw [← List.map_id (digitsBE n)]
    refine List.map_congr_left (fun d hd => ?_)
    exact charDigit_digitChar (digitsBE_lt n d hd)
  rw [hmap]
  unfold digitsBE
  split
  · simp [Nat.ofDigits]
    omega
  · rw [List.reverse_reverse]
    exact Nat.ofDigits_digits 10 n

lemma decDateChars_natChars (n : Nat) : decDateChars (natChars n) = (n : Int) := by
  cases hcs : natChars n with
  | nil => exact absurd hcs (natChars_ne_nil n)
  | cons c cs =>
    have hc : c ∈ natChars n := by rw [hcs]; exact List.mem_cons_self c cs
    unfold natChars at hc
    obtain ⟨d, hd, hdc⟩ := List.mem_map.mp hc
    have hne : c ≠ '-' := hdc ▸ digitChar_ne_dash (digitsBE_lt n d hd)
    rw [decDateChars, if_neg hne, ← hcs, parseNatChars_natChars]

lemma decDate_encDate (t : Int) : decDate (encDate t) = t := by
  unfold decDate encDate
  split
  · show decDateChars ('-' :: natChars t.natAbs) = t
    rw [decDateChars, if_pos rfl, parseNatChars_natChars]
    omega
  · show decDateChars (natChars t.natAbs) = t
    rw [decDateChars_natChars]
    omega

lemma encDate_data_ne_nil (t : Int) : (encDate t).data ≠ [] := by
  unfold encDate
  split
  · exact fun h => List.cons_ne_nil _ _ h
  · exact natChars_ne_nil t.natAbs

lemma deserializeTask_serializeTask (t : Task) :
    deserializeTask (serializeTask t) = t := by
  cases t with
  | mk id title description dueDate priority status createdAt updatedAt
      completedAt tags listId =>
    unfold serializeTask deserializeTask reviveOptDate
    cases dueDate <;> cases completedAt <;>
      simp [decDate_encDate, encDate_data_ne_nil]

/-! ## The `completedAt` / `status` invariant -/

/-- One task satisfies the invariant `completedAt` is non-null iff
`status == completed`. -/
def completedAtConsistent (t : Task) : Prop :=
  t.completedAt ≠ none ↔ t.status = .completed

instance (t : Task) : Decidable (completedAtConsistent t) := by
  unfold completedAtConsistent
  infer_instance

/-- Every task of a collection satisfies `completedAtConsistent`. -/
def collectionConsistent (tasks : List Task) : Prop :=
  ∀ t ∈ tasks, completedAtConsistent t

instance (tasks : List Task) : Decidable (collectionConsistent tasks) := by
  unfold collectionConsistent
  infer_instance

/-! ## Concrete sample data -/

/-- A pending task with no due date. -/
def samplePending : Task :=
  { id := "t1", title := "buy milk", priority := .low, status := .pending,
    createdAt := 0, updatedAt := 0 }

/-- A completed task, `completedAt` set, satisfying the invariant. -/
def sampleDone : Task :=
  { id := "t2", title := "ship release", priority := .high,
    status := .completed, createdAt := 0, updatedAt := 0,
    completedAt := some 0 }

/-- A pending task due exactly at the midnight starting day 0. -/
def dueMidnight : Task :=
  { id := "t3", title := "due at midnight", dueDate := some 0,
    priority := .medium, status := .pending, createdAt := 0, updatedAt := 0 }

/-- A creation payload with no explicit status. -/
def sampleInput : TaskInput := { title := "write tests", priority := .medium }

/-- The empty update payload (no field present). -/
def emptyUpdate : TaskUpdate := {}

/-- An update payload carrying only a new `id`. -/
def idUpdate : TaskUpdate := { id := some "t9" }

/-! ## Claim theorems -/

/-- Claim C1 (counterexample): the invariant `completedAt` non-null iff
`status == completed` is NOT preserved by `clearCompleted`
(`archiveCompleted`): a collection holding one completed task with a non-null
`completedAt` satisfies the invariant, but after `clearCompleted` the task is
`archived` while `completedAt` stays non-null. -/
theorem clearCompleted_violates_completedAt_invariant :
    collectionConsistent [sampleDone] ∧
    ¬ collectionConsistent (clearCompleted [sampleDone]) := by
  decide

/-- Claim C1 (amended): the `completedAt`/`status` invariant is preserved by
`deleteTask` and `updateTaskStatus`; by `addTask` whenever the input's status
is not `completed`; and by `updateTask` whenever the payload contains neither
`status` nor `completedAt`.  `clearCompleted` does not touch `completedAt` at
all (so it breaks the invariant on every completed task it archives). -/
theorem completedAt_invariant_preserved
    (tasks : List Task) (now : Int) (freshId : String) (input : TaskInput)
    (id : String) (u : TaskUpdate) (s : TaskStatus)
    (hInv : collectionConsistent tasks) :
    (input.status ≠ some .completed →
      collectionConsistent (addTask now freshId input tasks).2) ∧
    (u.status = none → u.completedAt = none →
      collectionConsistent (updateTask now id u tasks)) ∧
    collectionConsistent (deleteTask id tasks) ∧
    collectionConsistent (updateTaskStatus now id s tasks) ∧
    (clearCompleted tasks).map Task.completedAt =
      tasks.map Task.completedAt := by
  refine ⟨?_, ?_, ?_, ?_, ?_⟩
  · intro hs t ht
    simp only [addTask, List.mem_cons] at ht
    rcases ht with rfl | ht
    · simp only [completedAtConsistent]
      constructor
      · intro h
        exact absurd rfl h
      · intro h
        cases hi : input.status with
        | none => rw [hi] at h; exact absurd h (by decide)
        | some v =>
          rw [hi] at h
          simp only [Option.getD_some] at h
          exact absurd (hi.trans (congrArg some h)) hs
    · exact hInv t ht
  · intro hs hc t ht
    simp only [updateTask, List.mem_map] at ht
    obtain ⟨t₀, ht₀, rfl⟩ := ht
    by_cases hid : t₀.id = id
    · simp only [if_pos hid, completedAtConsistent, applyUpdate, hs, hc,
        Option.getD_none]
      exact hInv t₀ ht₀
    · simp only [if_neg hid]
      exact hInv t₀ ht₀
  · intro t ht
    exact hInv t (List.mem_of_mem_filter ht)
  · intro t ht
    simp only [updateTaskStatus, List.mem_map] at ht
    obtain ⟨t₀, ht₀, rfl⟩ := ht
    by_cases hid : t₀.id = id
    · simp only [if_pos hid, completedAtConsistent]
      by_cases hcomp : s = .completed
      · simp [hcomp]
      · simp [hcomp]
    · simp only [if_neg hid]
      exact hInv t₀ ht₀
  · rw [clearCompleted, List.map_map]
    refine List.map_congr_left (fun t _ => ?_)
    by_cases h : t.status = .completed <;> simp [h]

/-- Claim C1 (witness): the amended preservation theorem applied to a concrete
consistent collection. -/
theorem completedAt_invariant_preserved_witness :
    collectionConsistent [samplePending, sampleDone] ∧
    ((sampleInput.status ≠ some .completed →
      collectionConsistent
        (addTask 5 "t9" sampleInput [samplePending, sampleDone]).2) ∧
    (emptyUpdate.status = none → emptyUpdate.completedAt = none →
      collectionConsistent
        (updateTask 5 "t1" emptyUpdate [samplePending, sampleDone])) ∧
    collectionConsistent (deleteTask "t1" [samplePending, sampleDone]) ∧
    collectionConsistent
      (updateTaskStatus 5 "t1" .completed [samplePending, sampleDone]) ∧
    (clearCompleted [samplePending, sampleDone]).map Task.completedAt =
      [samplePending, sampleDone].map Task.completedAt) :=
  ⟨by decide,
   completedAt_invariant_preserved [samplePending, sampleDone] 5 "t9"
     sampleInput "t1" emptyUpdate .completed (by decide)⟩

/-- Claim C3 (counterexample): `clearCompleted` changes a task (its status) but
does not refresh `updatedAt`: applied at instant `5` to a completed task last
updated at `0`, the archived task's `updatedAt` is still `0`, not `5`. -/
theorem clearCompleted_does_not_refresh_updatedAt :
    clearCompleted [sampleDone] = [{ sampleDone with status := .archived }] ∧
    ({ sampleDone with status := .archived } : Task) ≠ sampleDone ∧
    ({ sampleDone with status := .archived } : Task).updatedAt = 0 ∧
    (0 : Int) ≠ 5 := by
  decide

/-- Claim C3 (amended): `updateTask` and `updateTaskStatus` set
`updatedAt = now` on every task they change, and afterwards
`updatedAt ≥ createdAt` holds throughout the collection, provided it held
before, `now` is not earlier than any task's `createdAt`, and the update
payload does not write `createdAt`.  `clearCompleted`, by contrast, leaves
every task's `updatedAt` unchanged (while preserving
`updatedAt ≥ createdAt`). -/
theorem mutations_refresh_updatedAt
    (tasks : List Task) (now : Int) (id : String) (u : TaskUpdate)
    (s : TaskStatus)
    (hInv : ∀ t ∈ tasks, t.createdAt ≤ t.updatedAt)
    (hNow : ∀ t ∈ tasks, t.createdAt ≤ now)
    (hC : u.createdAt = none) :
    List.Forall₂ (fun t t' => t' ≠ t → t'.updatedAt = now) tasks
      (updateTask now id u tasks) ∧
    List.Forall₂ (fun t t' => t' ≠ t → t'.updatedAt = now) tasks
      (updateTaskStatus now id s tasks) ∧
    (∀ t' ∈ updateTask now id u tasks, t'.createdAt ≤ t'.updatedAt) ∧
    (∀ t' ∈ updateTaskStatus now id s tasks, t'.createdAt ≤ t'.updatedAt) ∧
    (clearCompleted tasks).map Task.updatedAt = tasks.map Task.updatedAt ∧
    (∀ t' ∈ clearCompleted tasks, t'.createdAt ≤ t'.updatedAt) := by
  refine ⟨?_, ?_, ?_, ?_, ?_, ?_⟩
  · rw [updateTask, List.forall₂_map_right_iff, List.forall₂_same]
    intro t _ _
    by_cases hid : t.id = id
    · simp [hid, applyUpdate]
    · simp [hid] at *
  · rw [updateTaskStatus, List.forall₂_map_right_iff, List.forall₂_same]
    intro t _ _
    by_cases hid : t.id = id
    · simp [hid]
    · simp [hid] at *
  · intro t' ht'
    simp only [updateTask, List.mem_map] at ht'
    obtain ⟨t₀, ht₀, rfl⟩ := ht'
    by_cases hid : t₀.id = id
    · simp only [if_pos hid, applyUpdate, hC, Option.getD_none]
      exact hNow t₀ ht₀
    · simp only [if_neg hid]
      exact hInv t₀ ht₀
  · intro t' ht'
    simp only [updateTaskStatus, List.mem_map] at ht'
    obtain ⟨t₀, ht₀, rfl⟩ := ht'
    by_cases hid : t₀.id = id
    · simp only [if_pos hid]
      exact hNow t₀ ht₀
    · simp only [if_neg hid]
      exact hInv t₀ ht₀
  · rw [clearCompleted, List.map_map]
    refine List.map_congr_left (fun t _ => ?_)
    by_cases h : t.status = .completed <;> simp [h]
  · intro t' ht'
    simp only [clearCompleted, List.mem_map] at ht'
    obtain ⟨t₀, ht₀, rfl⟩ := ht'
    by_cases h : t₀.status = .completed
    · simp only [if_pos h]
      exact hInv t₀ ht₀
    · simp only [if_neg h]
      exact hInv t₀ ht₀

/-- Claim C3 (witness): the amended refresh theorem applied to a concrete
collection at instant `7`. -/
theorem mutations_refresh_updatedAt_witness :
    ((∀ t ∈ [samplePending, sampleDone], t.createdAt ≤ t.updatedAt) ∧
     (∀ t ∈ [samplePending, sampleDone], t.createdAt ≤ (7 : Int)) ∧
     emptyUpdate.createdAt = none) ∧
    (List.Forall₂ (fun t t' => t' ≠ t → t'.updatedAt = 7)
      [samplePending, sampleDone]
      (updateTask 7 "t1" emptyUpdate [samplePending, sampleDone]) ∧
    List.Forall₂ (fun t t' => t' ≠ t → t'.updatedAt = 7)
      [samplePending, sampleDone]
      (updateTaskStatus 7 "t1" .completed [samplePending, sampleDone]) ∧
    (∀ t' ∈ updateTask 7 "t1" emptyUpdate [samplePending, sampleDone],
      t'.createdAt ≤ t'.updatedAt) ∧
    (∀ t' ∈ updateTaskStatus 7 "t1" .completed [samplePending, sampleDone],
      t'.createdAt ≤ t'.updatedAt) ∧
    (clearCompleted [samplePending, sampleDone]).map Task.updatedAt =
      [samplePending, sampleDone].map Task.updatedAt ∧
    (∀ t' ∈ clearCompleted [samplePending, sampleDone],
      t'.createdAt ≤ t'.updatedAt)) :=
  ⟨⟨by decide, by decide, rfl⟩,
   mutations_refresh_updatedAt [samplePending, sampleDone] 7 "t1" emptyUpdate
     .completed (by decide) (by decide) rfl⟩

/-- Claim C4 (counterexample): `updateTask` DOES allow changing `id`: updating
task `"t1"` with a payload carrying `id: "t9"` renames the task. -/
theorem updateTask_changes_id :
    (updateTask 5 "t1" idUpdate [samplePending]).map Task.id = ["t9"] ∧
    ("t9" : String) ≠ "t1" := by
  decide

/-- Claim C4 (amended): when the payload does not itself carry an `id` field,
`updateTask` preserves every task's id; and for ANY payload, every task whose
id differs from the given id is entirely unchanged, and if no task matches
the id the whole collection is unchanged. -/
theorem updateTask_frame
    (tasks : List Task) (now : Int) (id : String) (u : TaskUpdate) :
    (u.id = none →
      (updateTask now id u tasks).map Task.id = tasks.map Task.id) ∧
    List.Forall₂ (fun t t' => t.id ≠ id → t' = t) tasks
      (updateTask now id u tasks) ∧
    ((∀ t ∈ tasks, t.id ≠ id) → updateTask now id u tasks = tasks) := by
  refine ⟨?_, ?_, ?_⟩
  · intro hid
    rw [updateTask, List.map_map]
    refine List.map_congr_left (fun t _ => ?_)
    by_cases h : t.id = id
    · simp [h, applyUpdate, hid]
    · simp [h]
  · rw [updateTask, List.forall₂_map_right_iff, List.forall₂_same]
    intro t _ h
    simp [h]
  · intro h
    rw [updateTask]
    conv_rhs => rw [← List.map_id tasks]
    exact List.map_congr_left (fun t ht => by simp [h t ht])

/-- Claim C4 (witness): the frame theorem applied at a concrete collection
with the id-free payload, the inner hypothesis discharged concretely. -/
theorem updateTask_frame_witness :
    emptyUpdate.id = none ∧
    ((updateTask 3 "t1" emptyUpdate [samplePending, sampleDone]).map Task.id =
      [samplePending, sampleDone].map Task.id) ∧
    List.Forall₂ (fun t t' => t.id ≠ "t1" → t' = t) [samplePending, sampleDone]
      (updateTask 3 "t1" emptyUpdate [samplePending, sampleDone]) ∧
    ((∀ t ∈ [samplePending, sampleDone], t.id ≠ "t1") →
      updateTask 3 "t1" emptyUpdate [samplePending, sampleDone] =
        [samplePending, sampleDone]) :=
  ⟨rfl,
   (updateTask_frame [samplePending, sampleDone] 3 "t1" emptyUpdate).1 rfl,
   (updateTask_frame [samplePending, sampleDone] 3 "t1" emptyUpdate).2.1,
   (updateTask_frame [samplePending, sampleDone] 3 "t1" emptyUpdate).2.2⟩

/-- Claim C5: `addTask` at instant `now` returns a task whose status is the
input's status defaulted to `pending`, whose `completedAt` is null, whose
`createdAt` and `updatedAt` both equal `now`, whose remaining fields are
copied from the input, and the new collection is the old one with this task
prepended. -/
theorem addTask_spec (now : Int) (freshId : String) (input : TaskInput)
    (tasks : List Task) :
    (addTask now freshId input tasks).1.status = input.status.getD .pending ∧
    (addTask now freshId input tasks).1.completedAt = none ∧
    (addTask now freshId input tasks).1.createdAt = now ∧
    (addTask now freshId input tasks).1.updatedAt = now ∧
    (addTask now freshId input tasks).1.id = freshId ∧
    (addTask now freshId input tasks).1.title = input.title ∧
    (addTask now freshId input tasks).1.description = input.description ∧
    (addTask now freshId input tasks).1.dueDate = input.dueDate ∧
    (addTask now freshId input tasks).1.priority = input.priority ∧
    (addTask now freshId input tasks).1.tags = input.tags ∧
    (addTask now freshId input tasks).1.listId = input.listId ∧
    (addTask now freshId input tasks).2 =
      (addTask now freshId input tasks).1 :: tasks :=
  ⟨rfl, rfl, rfl, rfl, rfl, rfl, rfl, rfl, rfl, rfl, rfl, rfl⟩

/-- Modelled from the amended wording of C2: due date present, strictly
before the current instant `now` (instant granularity, no truncation to
midnight), and status neither `completed` nor `archived`. -/
def overdueAtInstant (now : Int) (t : Task) : Bool :=
  t.dueDate.isSome && decide (t.dueDate.getD 0 < now) &&
    decide (¬ t.status = .completed) && decide (¬ t.status = .archived)

/-- Claim C2 (counterexample): `getOverdueTasks` does not agree with filtering
by `isTaskOverdue`: for a pending task due exactly at midnight of day 0 and
the current instant one hour later, the Manager helper reports the task as
overdue (instant comparison) while the Derived-View predicate does not (both
instants truncate to the same midnight). -/
theorem getOverdueTasks_ne_isTaskOverdue_filter :
    getOverdueTasks 3600000 [dueMidnight] = [dueMidnight] ∧
    [dueMidnight].filter (fun t => isTaskOverdue t 3600000) = [] := by
  decide

/-- Claim C2 (amended): `getOverdueTasks` equals filtering the collection by
the instant-granularity predicate `overdueAtInstant` (due date present and
strictly before the current instant, status neither completed nor archived),
preserving order. -/
theorem getOverdueTasks_eq_filter_overdueAtInstant (now : Int)
    (tasks : List Task) :
    getOverdueTasks now tasks = tasks.filter (overdueAtInstant now) := by
  rw [getOverdueTasks]
  refine List.filter_congr (fun t _ => ?_)
  cases hd : t.dueDate <;>
    simp [overdueAtInstant, hd, decide_eq_true_eq, Bool.and_assoc]

/-- Claim C6: the persistence round-trip is the identity: loading a saved
collection yields an equal collection, every date-typed field reconstructed
as an instant with exact equality. -/
theorem load_save_roundtrip (tasks : List Task) :
    loadTasks (saveTasks tasks) = tasks := by
  rw [loadTasks, saveTasks, List.map_map]
  conv_rhs => rw [← List.map_id tasks]
  exact List.map_congr_left (fun t _ => deserializeTask_serializeTask t)

/-- Claim C7: `sortByPriority` returns a permutation of its input that is
ordered by non-increasing priority rank, and it is stable: for each priority,
the subsequence of tasks of that priority is exactly the one of the input (so
two tasks of equal priority keep their original relative order).  The input
list itself is a value the function never writes to. -/
theorem sortByPriority_spec (tasks : List Task) (p : TaskPriority) :
    (sortByPriority tasks).Perm tasks ∧
    List.Pairwise
      (fun a b => getPriorityValue b.priority ≤ getPriorityValue a.priority)
      (sortByPriority tasks) ∧
    (sortByPriority tasks).filter (fun t => t.priority = p) =
      tasks.filter (fun t => t.priority = p) := by
  have htrans : ∀ a b c : Task, prioLe a b → prioLe b c → prioLe a c := by
    intro a b c h1 h2
    simp only [prioLe, decide_eq_true_eq] at *
    omega
  have htotal : ∀ a b : Task, prioLe a b || prioLe b a := by
    intro a b
    simp only [prioLe, Bool.or_eq_true, decide_eq_true_eq]
    omega
  simp only [sortByPriority]
  refine ⟨List.mergeSort_perm tasks prioLe, ?_, ?_⟩
  · have h := @List.sorted_mergeSort Task prioLe htrans htotal tasks
    exact h.imp (fun hab => by simpa [prioLe, decide_eq_true_eq] using hab)
  · have hmem : ∀ t ∈ tasks.filter (fun t => t.priority = p),
        t.priority = p := by
      intro t ht
      simpa using (List.mem_filter.mp ht).2
    have hpair : List.Pairwise (fun a b => prioLe a b = true)
        (tasks.filter (fun t => t.priority = p)) := by
      refine List.pairwise_of_forall_mem_list (fun a ha b hb => ?_)
      simp [prioLe, hmem a ha, hmem b hb]
    have hsub : (tasks.filter (fun t => t.priority = p)).Sublist
        (tasks.mergeSort prioLe) :=
      List.sublist_mergeSort htrans htotal hpair (List.filter_sublist tasks)
    have hfilter : (tasks.filter (fun t => t.priority = p)).filter
        (fun t => t.priority = p) = tasks.filter (fun t => t.priority = p) :=
      List.filter_eq_self.mpr (fun a ha => by simpa using hmem a ha)
    have hsub2 : (tasks.filter (fun t => t.priority = p)).Sublist
        ((tasks.mergeSort prioLe).filter (fun t => t.priority = p)) := by
      have h := List.Sublist.filter (fun t => decide (t.priority = p)) hsub
      rwa [hfilter] at h
    have hperm : ((tasks.mergeSort prioLe).filter
        (fun t => t.priority = p)).Perm
        (tasks.filter (fun t => t.priority = p)) :=
      (List.mergeSort_perm tasks prioLe).filter _
    exact (hsub2.eq_of_length hperm.length_eq.symm).symm

/-- Claim C9: a failing durable write in `setValue` never propagates to the
caller: the exception is swallowed by the catch handler, the in-memory
collection is still set to the new value, and the storage slot keeps its old
contents exactly when the write failed. -/
theorem setValue_absorbs_storage_failure (writeOk : Bool) (st : StoreState)
    (arg : SetValueArg) :
    (setValue writeOk st arg).2 = none ∧
    (setValue writeOk st arg).1.memory = resolveArg st arg ∧
    (setValue writeOk st arg).1.storage =
      (if writeOk then some (saveTasks (resolveArg st arg))
       else st.storage) := by
  cases writeOk <;> simp [setValue, setValueTry, setItemOp]

/-- Claim C10: `getTasksByStatus 'all'` returns exactly the non-archived tasks
of the collection in order (not the full collection), and
`getTasksByStatus s` for a concrete status `s` returns exactly the tasks of
status `s` in order. -/
theorem getTasksByStatus_spec (tasks : List Task) (s : TaskStatus) :
    (getTasksByStatus tasks .all).Sublist tasks ∧
    (∀ t, t ∈ getTasksByStatus tasks .all ↔
      t ∈ tasks ∧ ¬ t.status = .archived) ∧
    (getTasksByStatus tasks (.status s)).Sublist tasks ∧
    (∀ t, t ∈ getTasksByStatus tasks (.status s) ↔
      t ∈ tasks ∧ t.status = s) := by
  refine ⟨List.filter_sublist tasks, ?_, List.filter_sublist tasks, ?_⟩
  · intro t
    simp [getTasksByStatus, List.mem_filter]
  · intro t
    simp [getTasksByStatus, List.mem_filter]

/-! ## Grouping lemmas (for C8) -/

lemma keys_addToGroups (groups : List (String × List Task)) (k : String)
    (t : Task) :
    (addToGroups groups k t).map Prod.fst =
      if groups.any (fun p => p.1 = k) then groups.map Prod.fst
      else groups.map Prod.fst ++ [k] := by
  unfold addToGroups
  by_cases h : groups.any (fun p => p.1 = k)
  · rw [if_pos h, if_pos h, List.map_map]
    refine List.map_congr_left (fun q _ => ?_)
    by_cases hq : q.1 = k <;> simp [hq]
  · rw [if_neg h, if_neg h, List.map_append]
    rfl

lemma any_key_iff (groups : List (String × List Task)) (k : String) :
    groups.any (fun p => p.1 = k) ↔ k ∈ groups.map Prod.fst := by
  rw [List.any_eq_true]
  constructor
  · rintro ⟨p, hp, hpk⟩
    exact List.mem_map.mpr ⟨p, hp, by simpa using hpk⟩
  · intro hm
    obtain ⟨p, hp, hpk⟩ := List.mem_map.mp hm
    exact ⟨p, hp, by simp [hpk]⟩

lemma findGroup_isSome_iff (groups : List (String × List Task)) (k : String) :
    (findGroup groups k).isSome ↔ k ∈ groups.map Prod.fst := by
  unfold findGroup
  cases hf : List.find? (fun p => decide (p.1 = k)) groups with
  | none =>
    simp only [Option.map_none']
    constructor
    · intro h
      simp at h
    · intro hm
      obtain ⟨p, hp, hpk⟩ := List.mem_map.mp hm
      have h := List.find?_eq_none.mp hf p hp
      simp [hpk] at h
  | some p =>
    simp only [Option.map_some']
    refine ⟨fun _ => ?_, fun _ => by simp⟩
    have h1 := List.find?_some hf
    have h2 := List.mem_of_find?_eq_some hf
    exact List.mem_map.mpr ⟨p, h2, by simpa using h1⟩

lemma findGroup_map_update (k' : String) (t : Task)
    (groups : List (String × List Task)) (k : String) :
    findGroup (groups.map (fun p => if p.1 = k' then (p.1, p.2 ++ [t]) else p))
        k =
      (findGroup groups k).map (fun g => if k = k' then g ++ [t] else g) := by
  induction groups with
  | nil => rfl
  | cons q qs ih =>
    rw [List.map_cons]
    by_cases hq : q.1 = k
    · by_cases hq' : q.1 = k'
      · rw [if_pos hq']
        unfold findGroup
        rw [List.find?_cons_of_pos _ (by simp [hq]),
          List.find?_cons_of_pos _ (by simp [hq])]
        have hkk' : k = k' := hq ▸ hq'
        simp [hkk']
      · rw [if_neg hq']
        unfold findGroup
        rw [List.find?_cons_of_pos _ (by simp [hq]),
          List.find?_cons_of_pos _ (by simp [hq])]
        have hkk' : ¬ k = k' := fun h => hq' (hq.trans h)
        simp [hkk']
    · have hq2 : ¬ ((if q.1 = k' then (q.1, q.2 ++ [t]) else q).1 = k) := by
        by_cases hq' : q.1 = k'
        · rw [if_pos hq']
          exact hq
        · rw [if_neg hq']
          exact hq
      unfold findGroup at ih ⊢
      rw [List.find?_cons_of_neg _ (by simpa using hq2),
        List.find?_cons_of_neg _ (by simpa using hq)]
      exact ih

lemma findGroup_append_single (groups : List (String × List Task))
    (k' : String) (t : Task) (k : String) :
    findGroup (groups ++ [(k', [t])]) k =
      (findGroup groups k).or (if k = k' then some [t] else none) := by
  unfold findGroup
  rw [List.find?_append]
  cases hf : List.find? (fun p => decide (p.1 = k)) groups
  · by_cases hk : k = k'
    · rw [List.find?_cons_of_pos _ (by simp [hk])]
      simp [hk]
    · rw [List.find?_cons_of_neg _ ?_]
      · simp [hk]
      · simp only [decide_eq_true_eq]
        exact fun h => hk h.symm
  · simp

lemma findGroup_addToGroups (groups : List (String × List Task)) (k' : String)
    (t : Task) (k : String) :
    findGroup (addToGroups groups k' t) k =
      if k = k' then some ((findGroup groups k).getD [] ++ [t])
      else findGroup groups k := by
  unfold addToGroups
  by_cases h : groups.any (fun p => p.1 = k')
  · rw [if_pos h, findGroup_map_update]
    by_cases hk : k = k'
    · subst hk
      have hmem : k ∈ groups.map Prod.fst := (any_key_iff groups k).mp h
      obtain ⟨g, hg⟩ := Option.isSome_iff_exists.mp
        ((findGroup_isSome_iff groups k).mpr hmem)
      simp [hg]
    · cases hfg : findGroup groups k <;> simp [hfg, hk]
  · rw [if_neg h, findGroup_append_single]
    by_cases hk : k = k'
    · subst hk
      have hnone : findGroup groups k = none := by
        rw [← Option.not_isSome_iff_eq_none, findGroup_isSome_iff,
          ← any_key_iff]
        exact h
      simp [hnone]
    · cases hfg : findGroup groups k <;> simp [hfg, hk]
lemma findGroup_foldl (key : Task → String) (ts : List Task) :
    ∀ (acc : List (String × List Task)) (k : String),
      findGroup (List.foldl (fun acc t => addToGroups acc (key t) t) acc ts)
          k =
        match findGroup acc k with
        | some g => some (g ++ ts.filter (fun t => key t = k))
        | none =>
          if ts.any (fun t => key t = k) then
            some (ts.filter (fun t => key t = k))
          else none := by
  induction ts with
  | nil =>
    intro acc k
    cases h : findGroup acc k <;> simp [h]
  | cons t ts ih =>
    intro acc k
    rw [List.foldl_cons, ih, findGroup_addToGroups]
    by_cases hk : k = key t
    · rw [if_pos hk]
      cases h : findGroup acc k <;>
        simp [h, hk, List.filter_cons, List.any_cons]
    · rw [if_neg hk]
      have hk' : ¬ (key t = k) := fun h => hk h.symm
      cases h : findGroup acc k <;>
        simp [h, hk', List.filter_cons, List.any_cons]

lemma findGroup_groupTasks (tasks : List Task) (key : Task → String)
    (k : String) :
    findGroup (groupTasks tasks key) k =
      if tasks.any (fun t => key t = k) then
        some (tasks.filter (fun t => key t = k))
      else none := by
  rw [groupTasks, findGroup_foldl]
  rfl

lemma nodupKeys_addToGroups (groups : List (String × List Task)) (k : String)
    (t : Task) (hn : (groups.map Prod.fst).Nodup) :
    ((addToGroups groups k t).map Prod.fst).Nodup := by
  rw [keys_addToGroups]
  by_cases h : groups.any (fun p => p.1 = k)
  · rwa [if_pos h]
  · rw [if_neg h]
    have hk : k ∉ groups.map Prod.fst := fun hm => h ((any_key_iff groups k).mpr hm)
    exact ((List.perm_append_singleton k _).nodup_iff).mpr
      (List.nodup_cons.mpr ⟨hk, hn⟩)

lemma nodupKeys_foldl (key : Task → String) (ts : List Task) :
    ∀ acc : List (String × List Task), (acc.map Prod.fst).Nodup →
      ((List.foldl (fun acc t => addToGroups acc (key t) t) acc ts).map
        Prod.fst).Nodup := by
  induction ts with
  | nil => intro acc hn; exact hn
  | cons t ts ih =>
    intro acc hn
    rw [List.foldl_cons]
    exact ih _ (nodupKeys_addToGroups acc (key t) t hn)

lemma findGroup_of_mem (groups : List (String × List Task))
    (hn : (groups.map Prod.fst).Nodup) (g : String × List Task)
    (hg : g ∈ groups) :
    findGroup groups g.1 = some g.2 := by
  induction groups with
  | nil => cases hg
  | cons q qs ih =>
    rcases List.mem_cons.mp hg with rfl | hg'
    · simp [findGroup, List.find?_cons_of_pos]
    · have hq : ¬ (q.1 = g.1) := by
        intro h
        exact (List.nodup_cons.mp hn).1
          (h ▸ List.mem_map_of_mem Prod.fst hg')
      unfold findGroup at ih ⊢
      rw [List.find?_cons_of_neg _ (by simpa using hq)]
      exact ih (List.nodup_cons.mp hn).2 hg'

lemma join_map_update (k : String) (t : Task) :
    ∀ groups : List (String × List Task), (groups.map Prod.fst).Nodup →
      groups.any (fun p => p.1 = k) →
      (((groups.map (fun p => if p.1 = k then (p.1, p.2 ++ [t]) else p)).map
          Prod.snd).flatten).Perm
        ((groups.map Prod.snd).flatten ++ [t]) := by
  intro groups
  induction groups with
  | nil => intro _ h; simp at h
  | cons q qs ih =>
    intro hn h
    by_cases hq : q.1 = k
    · have hk : k ∉ qs.map Prod.fst := by
        have h1 := (List.nodup_cons.mp hn).1
        rwa [hq] at h1
      have hid : qs.map (fun p => if p.1 = k then (p.1, p.2 ++ [t]) else p) =
          qs := by
        conv_rhs => rw [← List.map_id qs]
        refine List.map_congr_left (fun p hp => ?_)
        have hpk : ¬ (p.1 = k) := fun hpk =>
          hk (hpk ▸ List.mem_map_of_mem Prod.fst hp)
        simp [hpk]
      simp only [List.map_cons, if_pos hq, hid, List.flatten_cons]
      rw [List.append_assoc, List.append_assoc]
      exact List.Perm.append_left q.2
        ((List.perm_append_singleton t _).symm)
    · have h' : qs.any (fun p => p.1 = k) := by
        rw [List.any_cons] at h
        simpa [hq] using h
      have hperm := ih (List.nodup_cons.mp hn).2 h'
      simp only [List.map_cons, if_neg hq, List.flatten_cons]
      rw [List.append_assoc]
      exact List.Perm.append_left q.2 hperm

lemma join_addToGroups (groups : List (String × List Task)) (k : String)
    (t : Task) (hn : (groups.map Prod.fst).Nodup) :
    (((addToGroups groups k t).map Prod.snd).flatten).Perm
      ((groups.map Prod.snd).flatten ++ [t]) := by
  unfold addToGroups
  by_cases h : groups.any (fun p => p.1 = k)
  · rw [if_pos h]
    exact join_map_update k t groups hn h
  · rw [if_neg h]
    simp [List.map_append, List.flatten_append]

lemma join_foldl (key : Task → String) (ts : List Task) :
    ∀ acc : List (String × List Task), (acc.map Prod.fst).Nodup →
      (((List.foldl (fun acc t => addToGroups acc (key t) t) acc ts).map
          Prod.snd).flatten).Perm ((acc.map Prod.snd).flatten ++ ts) := by
  induction ts with
  | nil => intro acc _; simp
  | cons t ts ih =>
    intro acc hn
    rw [List.foldl_cons]
    refine (ih _ (nodupKeys_addToGroups acc (key t) t hn)).trans ?_
    refine ((join_addToGroups acc (key t) t hn).append_right ts).trans ?_
    rw [List.append_assoc]
    rfl

/-- Claim C8: `groupTasks` partitions its input exactly: each group's contents
are the input tasks whose key equals the group's key, in input order (so
every task lands in exactly one group and per-group order is preserved);
group keys are pairwise distinct and are exactly the key values occurring in
the input (no empty group exists); and concatenating all groups is a
permutation of the input. -/
theorem groupTasks_partitions (tasks : List Task) (key : Task → String) :
    (∀ g ∈ groupTasks tasks key,
      g.2 = tasks.filter (fun t => key t = g.1)) ∧
    ((groupTasks tasks key).map Prod.fst).Nodup ∧
    (∀ k, k ∈ (groupTasks tasks key).map Prod.fst ↔
      ∃ t ∈ tasks, key t = k) ∧
    (∀ g ∈ groupTasks tasks key, g.2 ≠ []) ∧
    (((groupTasks tasks key).map Prod.snd).flatten).Perm tasks := by
  have hnod : ((groupTasks tasks key).map Prod.fst).Nodup :=
    nodupKeys_foldl key tasks [] (by simp)
  have hmemkeys : ∀ k, k ∈ (groupTasks tasks key).map Prod.fst ↔
      ∃ t ∈ tasks, key t = k := by
    intro k
    rw [← findGroup_isSome_iff, findGroup_groupTasks]
    by_cases hany : tasks.any (fun t => key t = k) <;>
      simp_all [List.any_eq_true]
  have hcontent : ∀ g ∈ groupTasks tasks key,
      g.2 = tasks.filter (fun t => key t = g.1) := by
    intro g hg
    have h1 := findGroup_of_mem _ hnod g hg
    have h2 := findGroup_groupTasks tasks key g.1
    rw [h1] at h2
    by_cases hany : tasks.any (fun t => key t = g.1)
    · rw [if_pos hany] at h2
      exact Option.some.inj h2
    · rw [if_neg hany] at h2
      cases h2
  refine ⟨hcontent, hnod, hmemkeys, ?_, ?_⟩
  · intro g hg
    have hk : g.1 ∈ (groupTasks tasks key).map Prod.fst :=
      List.mem_map_of_mem Prod.fst hg
    obtain ⟨t, ht, hkt⟩ := (hmemkeys g.1).mp hk
    rw [hcontent g hg]
    exact List.ne_nil_of_mem (List.mem_filter.mpr ⟨ht, by simpa using hkt⟩)
  · have h := join_foldl key tasks [] (by simp)
    simpa using h

end Nimbus
